import Mathlib

/-!
Formal model of the buffer cache (kernel/bio.c) and the physical page
allocator (kernel/kalloc.c) of this xv6 derivative, together with proofs
about the claims of the specification.

Modelling conventions:
* C `uint` fields (`refcnt`, `time_stamp`) are natural numbers reduced
  modulo 2^32 at every update; `__UINT32_MAX__` is the literal 4294967295.
* The buffer pool is addressed by slot index (a `Nat`); `bufs : Nat → Buf`
  gives the descriptor stored in each slot, and `chains : Nat → List Nat`
  gives, for each bucket, the singly linked `next` chain of slot indices
  (head first), exactly as built by `bucket[i].head.next` pushes.
* Spinlocks and sleeplocks are not modelled; operations are taken as
  atomic steps of a sequential transition system (each C critical section
  executes without interference).
* `panic` is modelled as an explicit `fatal` result; dereferencing a null
  `next` pointer in the eviction unlink walk is modelled as `crash`.
-/

/-- `struct buf` bookkeeping fields (kernel/buf.h): device id, block
number, valid flag, reference count and release time stamp. -/
structure Buf where
  dev : Nat
  blockno : Nat
  valid : Bool
  refcnt : Nat
  time_stamp : Nat
deriving DecidableEq

/-- The zero-initialized descriptor: C global arrays start zeroed. -/
def buf0 : Buf := { dev := 0, blockno := 0, valid := false, refcnt := 0, time_stamp := 0 }

/-- The buffer-cache state: the descriptor pool `bufs` (slot-indexed) and
the per-bucket chains `bucket[i].head.next` as lists of slot indices. -/
structure BCache where
  bufs : Nat → Buf
  chains : Nat → List Nat

/-- 2^32, the modulus of C `uint` arithmetic. -/
def MOD32 : Nat := 4294967296

/-- `__UINT32_MAX__`, the initial value of `nowmin` in `bget`. -/
def UINT32MAX : Nat := 4294967295

/-- One iteration of the inner loop of `binit`: set `b->blockno = i` and
push slot `b` on the head of bucket `i`'s chain. -/
def pushBuf (i b : Nat) (s : BCache) : BCache :=
  { bufs := fun x => if x = b then { s.bufs b with blockno := i } else s.bufs x
  , chains := fun x => if x = i then b :: s.chains i else s.chains x }

/-- The inner loop `for(j = 0; j < NBUF / NBUCKET; j++)` of `binit`,
pushing `j` consecutive slots starting at `b` onto bucket `i`. -/
def binitInner (i : Nat) : Nat → Nat → BCache → BCache
  | _, 0, s => s
  | b, j + 1, s => binitInner i (b + 1) j (pushBuf i b s)

/-- The outer loop `for(i = 0; i < NBUCKET; i++)` of `binit`, filling `n`
consecutive buckets starting at bucket `i`, `k` slots each, the running
slot cursor being `b`. -/
def binitBuckets (k : Nat) : Nat → Nat → Nat → BCache → BCache
  | _, _, 0, s => s
  | b, i, n + 1, s => binitBuckets k (b + k) (i + 1) n (binitInner i b k s)

/-- `binit`: from the zeroed C globals, distribute `NBUF / NBUCKET`
descriptors to each of the `NBUCKET` buckets, setting each descriptor's
`blockno` to its bucket index. -/
def binit (NBUF NBUCKET : Nat) : BCache :=
  binitBuckets (NBUF / NBUCKET) 0 0 NBUCKET
    { bufs := fun _ => buf0, chains := fun _ => [] }

/-- The cache-hit scan of `bget`: first slot on the chain whose descriptor
matches `b->dev == dev && b->blockno == blockno`. -/
def findHit (bufs : Nat → Buf) (dev blockno : Nat) : List Nat → Option Nat
  | [] => none
  | b :: rest =>
      if (bufs b).dev = dev ∧ (bufs b).blockno = blockno then some b
      else findHit bufs dev blockno rest

/-- The LRU candidate scan of `bget` (`b->refcnt == 0 && b->time_stamp <
nowmin`), threading the `(ans, nowmin)` accumulator. -/
def lruScan (bufs : Nat → Buf) : List Nat → Option Nat × Nat → Option Nat × Nat
  | [], acc => acc
  | b :: rest, acc =>
      if (bufs b).refcnt = 0 ∧ (bufs b).time_stamp < acc.2 then
        lruScan bufs rest (some b, (bufs b).time_stamp)
      else
        lruScan bufs rest acc

/-- The unlink walk of the eviction fallback (`while(now != ans)` with
`pre->next = now->next`): remove the first occurrence of `a`, or `none`
when the walk runs off the end of the chain (a null dereference in C). -/
def removeFirst : List Nat → Nat → Option (List Nat)
  | [], _ => none
  | x :: rest, a =>
      if x = a then some rest
      else Option.map (fun l => x :: l) (removeFirst rest a)

/-- The donor-bucket computation `int findid = ans->blockno % 13;` of the
fallback path of `bget` — note the hard-coded 13. -/
def donorId (blockno : Nat) : Nat := blockno % 13

/-- The chain surgery of the eviction fallback: unlink the victim `a`
from donor bucket `fd` (whose chain with the first `a` removed is
`removed`) and splice it onto the head of requesting bucket `id`
(`ans->next = bucket[id].head.next; bucket[id].head.next = ans`). -/
def splice (a fd id : Nat) (removed : List Nat) (s : BCache) : BCache :=
  { s with chains := fun x =>
      if x = id then a :: (if fd = id then removed else s.chains id)
      else if x = fd then removed
      else s.chains x }

/-- Repurposing a victim descriptor in `bget`: overwrite the key, clear
`valid`, set `refcnt = 1`. -/
def repurpose (dev blockno a : Nat) (s : BCache) : BCache :=
  { s with bufs := fun x =>
      if x = a then
        { s.bufs a with dev := dev, blockno := blockno, valid := false, refcnt := 1 }
      else s.bufs x }

/-- Result of `bget`: a returned (locked) buffer slot together with the
new cache state, a `panic("bget: no buffers")`, or a crash of the unlink
walk (null `next` dereference). -/
inductive BRes where
  | ok : BCache → Nat → BRes
  | fatal : BRes
  | crash : BRes

/-- `bget(dev, blockno)`: hit scan of the hashed bucket, then intra-bucket
LRU eviction, then the global fallback (full-pool scan under the pool-wide
lock, unlink from the donor bucket computed by `donorId`, splice onto the
head of the requesting bucket). -/
def bget (NBUF NBUCKET dev blockno : Nat) (s : BCache) : BRes :=
  match findHit s.bufs dev blockno (s.chains (blockno % NBUCKET)) with
  | some b =>
      BRes.ok
        { s with bufs := fun x =>
            if x = b then { s.bufs b with refcnt := ((s.bufs b).refcnt + 1) % MOD32 }
            else s.bufs x } b
  | none =>
      match lruScan s.bufs (s.chains (blockno % NBUCKET)) (none, UINT32MAX) with
      | (some ans, _) => BRes.ok (repurpose dev blockno ans s) ans
      | (none, nowmin) =>
          match lruScan s.bufs (List.range NBUF) (none, nowmin) with
          | (some ans, _) =>
              match removeFirst (s.chains (donorId ((s.bufs ans).blockno))) ans with
              | none => BRes.crash
              | some removed =>
                  BRes.ok
                    (repurpose dev blockno ans
                      (splice ans (donorId ((s.bufs ans).blockno)) (blockno % NBUCKET)
                        removed s)) ans
          | (none, _) => BRes.fatal

/-- `bread(dev, blockno)`: `bget`, then if the buffer is not valid, a
synchronous `virtio_disk_rw` read and `b->valid = 1`. -/
def bread (NBUF NBUCKET dev blockno : Nat) (s : BCache) : BRes :=
  match bget NBUF NBUCKET dev blockno s with
  | BRes.ok s1 b =>
      if (s1.bufs b).valid then BRes.ok s1 b
      else
        BRes.ok
          { s1 with bufs := fun x =>
              if x = b then { s1.bufs b with valid := true } else s1.bufs x } b
  | r => r

/-- The reference-count part of `brelse`: decrement `refcnt` (C `uint`
wraparound) and stamp `time_stamp = ticks` when it reaches zero. -/
def brelse (ticks b : Nat) (s : BCache) : BCache :=
  { s with bufs := fun x =>
      if x = b then
        if ((s.bufs b).refcnt + (MOD32 - 1)) % MOD32 = 0 then
          { s.bufs b with refcnt := 0, time_stamp := ticks % MOD32 }
        else
          { s.bufs b with refcnt := ((s.bufs b).refcnt + (MOD32 - 1)) % MOD32 }
      else s.bufs x }

/-- `bpin`: increment `refcnt` under the bucket lock. -/
def bpin (b : Nat) (s : BCache) : BCache :=
  { s with bufs := fun x =>
      if x = b then { s.bufs b with refcnt := ((s.bufs b).refcnt + 1) % MOD32 }
      else s.bufs x }

/-- `bunpin`: decrement `refcnt` under the bucket lock — no positivity
check, so a zero count wraps around to `UINT32MAX`. -/
def bunpin (b : Nat) (s : BCache) : BCache :=
  { s with bufs := fun x =>
      if x = b then { s.bufs b with refcnt := ((s.bufs b).refcnt + (MOD32 - 1)) % MOD32 }
      else s.bufs x }

/-- Did `bget`/`bread` return a buffer? -/
def isOk : BRes → Bool
  | BRes.ok _ _ => true
  | _ => false

/-- Did `bget` hit `panic("bget: no buffers")`? -/
def isFatal : BRes → Bool
  | BRes.fatal => true
  | _ => false

/-- Did the fallback unlink walk dereference a null pointer? -/
def isCrash : BRes → Bool
  | BRes.crash => true
  | _ => false

/-- The state produced by an `ok` result (the input state otherwise). -/
def bresS (dflt : BCache) : BRes → BCache
  | BRes.ok s _ => s
  | _ => dflt

/-- The slot returned by an `ok` result (0 otherwise). -/
def bresIx : BRes → Nat
  | BRes.ok _ b => b
  | _ => 0

/-- State after `bget` (unchanged if `bget` did not return a buffer). -/
def bgetS (NBUF NBUCKET dev blockno : Nat) (s : BCache) : BCache :=
  bresS s (bget NBUF NBUCKET dev blockno s)

/-- Slot returned by `bget`. -/
def bgetIx (NBUF NBUCKET dev blockno : Nat) (s : BCache) : Nat :=
  bresIx (bget NBUF NBUCKET dev blockno s)

/-- State after `bread` (unchanged if it did not return a buffer). -/
def breadS (NBUF NBUCKET dev blockno : Nat) (s : BCache) : BCache :=
  bresS s (bread NBUF NBUCKET dev blockno s)

/-- Slot returned by `bread`. -/
def breadIx (NBUF NBUCKET dev blockno : Nat) (s : BCache) : Nat :=
  bresIx (bread NBUF NBUCKET dev blockno s)

/-- A buffer-cache call made by a client of the interface. -/
inductive BOp where
  | get : Nat → Nat → BOp
  | rel : Nat → Nat → BOp
  | pin : Nat → BOp
  | unpin : Nat → BOp

/-- One well-formed client call. `get` may always be issued; `rel`, `pin`
and `unpin` take a buffer pointer the caller obtained from `bget`, so they
are issued only against a descriptor the caller still holds (nonzero
reference count). A `fatal` or `crash` outcome yields no successor
state. -/
def stepOp (NBUF NBUCKET : Nat) (s : BCache) : BOp → Option BCache
  | BOp.get d bn =>
      match bget NBUF NBUCKET d bn s with
      | BRes.ok s2 _ => some s2
      | _ => none
  | BOp.rel t b => if (s.bufs b).refcnt ≠ 0 then some (brelse t b s) else none
  | BOp.pin b => if (s.bufs b).refcnt ≠ 0 then some (bpin b s) else none
  | BOp.unpin b => if (s.bufs b).refcnt ≠ 0 then some (bunpin b s) else none

/-- Total variant of `stepOp` used to build concrete states: a refused or
failed call leaves the state unchanged. -/
def stepD (NBUF NBUCKET : Nat) (s : BCache) (op : BOp) : BCache :=
  (stepOp NBUF NBUCKET s op).getD s

/-- Run a list of calls with `stepD`. -/
def runD (NBUF NBUCKET : Nat) (s : BCache) (ops : List BOp) : BCache :=
  ops.foldl (stepD NBUF NBUCKET) s

/-- States reachable from the initialized cache by well-formed client
calls. -/
inductive BReach (NBUF NBUCKET : Nat) : BCache → Prop where
  | start : BReach NBUF NBUCKET (binit NBUF NBUCKET)
  | step (s s2 : BCache) (op : BOp) : BReach NBUF NBUCKET s →
      stepOp NBUF NBUCKET s op = some s2 → BReach NBUF NBUCKET s2

/-- The concatenation of all bucket chains (bucket membership, pool-wide). -/
def onChains (NBUCKET : Nat) (s : BCache) : List Nat :=
  (List.range NBUCKET).flatMap s.chains

/-! ### The physical page allocator (kernel/kalloc.c) -/

/-- `PGSIZE`, the page size. -/
def PGSIZE : Nat := 4096

/-- Allocator state: one free list of page addresses per CPU (the head is
`mem[c].freelist`), plus the byte contents of physical memory. -/
structure KState where
  freelists : Nat → List Nat
  mem : Nat → Nat

/-- `memset(a, c, n)` on the byte memory. -/
def memsetBytes (m : Nat → Nat) (a c n : Nat) : Nat → Nat :=
  fun x => if a ≤ x ∧ x < a + n then c else m x

/-- Store a little-endian 8-byte pointer value `v` at address `a` (the
write `r->next = ...` of the free-list link into the page itself). -/
def store64 (m : Nat → Nat) (a v : Nat) : Nat → Nat :=
  fun x => if a ≤ x ∧ x < a + 8 then v / 256 ^ (x - a) % 256 else m x

/-- The address value of a free-list head pointer: the first page address,
or 0 (the null pointer) for an empty list. -/
def listHeadAddr : List Nat → Nat
  | [] => 0
  | a :: _ => a

/-- `kfree(pa)` executed on CPU `id`: panic (`none`) unless `pa` is
page-aligned and inside `[kend, PHYSTOP)`; otherwise fill the page with
byte 1, store the old free-list head into the page's first bytes as the
`next` link, and push the page on CPU `id`'s free list. -/
def kfree (kend PHYSTOP id pa : Nat) (s : KState) : Option KState :=
  if pa % PGSIZE ≠ 0 ∨ pa < kend ∨ PHYSTOP ≤ pa then none
  else
    some
      { freelists := fun c => if c = id then pa :: s.freelists id else s.freelists c
      , mem := store64 (memsetBytes s.mem pa 1 PGSIZE) pa (listHeadAddr (s.freelists id)) }

/-- State after `kfree` (unchanged on panic). -/
def kfreeS (kend PHYSTOP id pa : Nat) (s : KState) : KState :=
  (kfree kend PHYSTOP id pa s).getD s

/-- The stealing loop of `kalloc` (`for(int i = 0; i < NCPU; i++)` with
`if(id == i) continue;`): pop the first available page of the first
nonempty peer list visited, filling it with byte 5. -/
def stealFrom (id : Nat) (s : KState) : List Nat → Option Nat × KState
  | [] => (none, s)
  | i :: rest =>
      if i = id then stealFrom id s rest
      else
        match s.freelists i with
        | r :: tail =>
            (some r,
              { freelists := fun c => if c = i then tail else s.freelists c
              , mem := memsetBytes s.mem r 5 PGSIZE })
        | [] => stealFrom id s rest

/-- `kalloc()` executed on CPU `id`: pop the local free list if nonempty
(filling the page with byte 5), else steal from the peer CPUs in index
order; return `none` with the state untouched when every list is empty. -/
def kalloc (NCPU id : Nat) (s : KState) : Option Nat × KState :=
  match s.freelists id with
  | r :: tail =>
      (some r,
        { freelists := fun c => if c = id then tail else s.freelists c
        , mem := memsetBytes s.mem r 5 PGSIZE })
  | [] => stealFrom id s (List.range NCPU)

/-! ### Invariants and concrete test states -/

/-- Cache-key soundness invariant: every descriptor with nonzero reference
count is the first descriptor with its `(dev, blockno)` key on the chain
of the bucket its block number hashes to.  This is the inductive form of
the key-uniqueness property. -/
def KeyInv (NBUCKET : Nat) (s : BCache) : Prop :=
  ∀ x, (s.bufs x).refcnt ≠ 0 →
    findHit s.bufs (s.bufs x).dev (s.bufs x).blockno
      (s.chains ((s.bufs x).blockno % NBUCKET)) = some x

/-- Bucket-membership invariant: buckets beyond `NBUCKET` are empty, and
each slot index appears on the bucket chains exactly once if `binit`
placed it (index below `NBUCKET * (NBUF / NBUCKET)`) and never
otherwise. -/
def ChainInv (NBUF NBUCKET : Nat) (s : BCache) : Prop :=
  (∀ c, NBUCKET ≤ c → s.chains c = []) ∧
  (∀ x, List.count x (onChains NBUCKET s) =
    if x < NBUCKET * (NBUF / NBUCKET) then 1 else 0)

/-- Concrete cache state (NBUF = 2, NBUCKET = 2): block 3 was cached in
bucket 1 and released, and bucket 0's only descriptor is held. -/
def S3c : BCache := runD 2 2 (binit 2 2) [BOp.get 0 3, BOp.rel 0 1, BOp.get 0 0]

/-- Concrete cache state (NBUF = 13, NBUCKET = 13): every descriptor was
acquired and then released at tick `__UINT32_MAX__`, so all reference
counts are 0 and all recency stamps are `UINT32MAX`. -/
def S5c : BCache :=
  runD 13 13 (binit 13 13)
    ((List.range 13).flatMap (fun i => [BOp.get 0 i, BOp.rel 4294967295 i]))

/-- Concrete cache state (NBUF = 13, NBUCKET = 13): descriptor 0 (bucket
0) was acquired and released at tick `__UINT32_MAX__`; everything else is
untouched. -/
def S9c : BCache := runD 13 13 (binit 13 13) [BOp.get 0 0, BOp.rel 4294967295 0]

/-- Concrete allocator state: all free lists empty, memory zeroed. -/
def KSE : KState := { freelists := fun _ => [], mem := fun _ => 0 }

/-- Concrete allocator state: CPU 1 owns one free page at 8192; CPU 0's
list is empty. -/
def KS1 : KState :=
  { freelists := fun c => if c = 1 then [8192] else [], mem := fun _ => 0 }

/-! ### Lemmas about the page allocator -/

lemma stealFrom_all_empty (id : Nat) (s : KState) :
    ∀ l : List Nat, (∀ j ∈ l, s.freelists j = []) → stealFrom id s l = (none, s) := by
  intro l
  induction l with
  | nil => intro _; rfl
  | cons i rest ih =>
      intro h
      by_cases hid : i = id
      · simp [stealFrom, hid, ih fun j hj => h j (List.mem_cons_of_mem _ hj)]
      · have hi : s.freelists i = [] := h i (List.mem_cons_self _ _)
        simp [stealFrom, hid, hi, ih fun j hj => h j (List.mem_cons_of_mem _ hj)]

lemma stealFrom_first (id : Nat) (s : KState) :
    ∀ (n a i : Nat), a ≤ i → i < a + n → i ≠ id → s.freelists i ≠ [] →
      (∀ j, a ≤ j → j < i → j ≠ id → s.freelists j = []) →
      (stealFrom id s (List.range' a n)).1 = some (listHeadAddr (s.freelists i)) ∧
      (stealFrom id s (List.range' a n)).2.freelists i = (s.freelists i).tail ∧
      (∀ c, c ≠ i → (stealFrom id s (List.range' a n)).2.freelists c = s.freelists c) ∧
      (stealFrom id s (List.range' a n)).2.mem =
        memsetBytes s.mem (listHeadAddr (s.freelists i)) 5 PGSIZE := by
  intro n
  induction n with
  | zero => intro a i h1 h2; omega
  | succ n ih =>
      intro a i h1 h2 hneq hne hprev
      rw [List.range'_succ]
      by_cases hid : a = id
      · have hai : a < i := lt_of_le_of_ne h1 fun h => hneq (h ▸ hid)
        have := ih (a + 1) i hai (by omega) hneq hne
          (fun j hj1 hj2 hj3 => hprev j (by omega) hj2 hj3)
        simpa [stealFrom, hid] using this
      · by_cases hai : a = i
        · subst hai
          obtain ⟨r, tail, hrt⟩ : ∃ r tail, s.freelists a = r :: tail := by
            cases hfa : s.freelists a with
            | nil => exact absurd hfa hne
            | cons r tail => exact ⟨r, tail, rfl⟩
          refine ⟨?_, ?_, ?_, ?_⟩
          · simp [stealFrom, hid, hrt, listHeadAddr]
          · simp [stealFrom, hid, hrt]
          · intro c hc
            simp [stealFrom, hid, hrt, hc]
          · simp [stealFrom, hid, hrt, listHeadAddr]
        · have hai2 : a < i := lt_of_le_of_ne h1 hai
          have hfa : s.freelists a = [] := hprev a le_rfl hai2 hid
          have := ih (a + 1) i hai2 (by omega) hneq hne
            (fun j hj1 hj2 hj3 => hprev j (by omega) hj2 hj3)
          simpa [stealFrom, hid, hfa] using this

lemma stealFrom_some_mem (id : Nat) (s : KState) :
    ∀ (l : List Nat) (r : Nat), (stealFrom id s l).1 = some r →
      (stealFrom id s l).2.mem = memsetBytes s.mem r 5 PGSIZE := by
  intro l
  induction l with
  | nil => intro r h; simp [stealFrom] at h
  | cons i rest ih =>
      intro r h
      by_cases hid : i = id
      · rw [stealFrom, if_pos hid] at h ⊢
        exact ih r h
      · rw [stealFrom, if_neg hid] at h ⊢
        cases hfi : s.freelists i with
        | nil =>
            rw [hfi] at h
            exact ih r h
        | cons q tail =>
            rw [hfi] at h
            injection h with h2
            rw [← h2]

lemma kalloc_empty_local (NCPU id : Nat) (s : KState) (h : s.freelists id = []) :
    kalloc NCPU id s = stealFrom id s (List.range NCPU) := by
  unfold kalloc
  rw [h]

/-- Claim C7 — `kalloc` pops the local CPU's list first; exactly when it is
empty it visits the other CPUs in index order and steals the first
available page; when every list is empty it returns `none` (no fatal
error) and leaves the state unchanged. -/
theorem C7_kalloc_local_then_steal (NCPU id : Nat) (s : KState) :
    (s.freelists id ≠ [] →
      (kalloc NCPU id s).1 = some (listHeadAddr (s.freelists id)) ∧
      (kalloc NCPU id s).2.freelists id = (s.freelists id).tail ∧
      (∀ c, c ≠ id → (kalloc NCPU id s).2.freelists c = s.freelists c)) ∧
    (s.freelists id = [] →
      ∀ i, i < NCPU → i ≠ id → s.freelists i ≠ [] →
        (∀ j, j < i → j ≠ id → s.freelists j = []) →
        (kalloc NCPU id s).1 = some (listHeadAddr (s.freelists i)) ∧
        (kalloc NCPU id s).2.freelists i = (s.freelists i).tail ∧
        (∀ c, c ≠ i → (kalloc NCPU id s).2.freelists c = s.freelists c)) ∧
    (id < NCPU → (∀ i, i < NCPU → s.freelists i = []) → kalloc NCPU id s = (none, s)) := by
  refine ⟨?_, ?_, ?_⟩
  · intro hne
    obtain ⟨r, tail, hrt⟩ : ∃ r tail, s.freelists id = r :: tail := by
      cases hfa : s.freelists id with
      | nil => exact absurd hfa hne
      | cons r tail => exact ⟨r, tail, rfl⟩
    refine ⟨?_, ?_, ?_⟩
    · simp [kalloc, hrt, listHeadAddr]
    · simp [kalloc, hrt]
    · intro c hc
      simp [kalloc, hrt, hc]
  · intro hloc i hi hneq hne hprev
    rw [kalloc_empty_local NCPU id s hloc, List.range_eq_range']
    have := stealFrom_first id s NCPU 0 i (Nat.zero_le i) (by omega) hneq hne
      (fun j _ hj2 hj3 => hprev j hj2 hj3)
    exact ⟨this.1, this.2.1, this.2.2.1⟩
  · intro hid hall
    rw [kalloc_empty_local NCPU id s (hall id hid)]
    exact stealFrom_all_empty id s (List.range NCPU)
      (fun j hj => hall j (List.mem_range.mp hj))


/-- Witness for C7: on a 2-CPU configuration with CPU 0's list empty and
CPU 1 owning page 8192, `kalloc` on CPU 0 steals CPU 1's page. -/
theorem C7_kalloc_witness :
    (kalloc 2 0 KS1).1 = some (listHeadAddr (KS1.freelists 1)) :=
  ((C7_kalloc_local_then_steal 2 0 KS1).2.1 (by decide) 1 (by decide) (by decide)
    (by decide) (by decide)).1

/-- Claim C8 — `kfree` panics exactly when the address is unaligned or
outside `[kend, PHYSTOP)`; on any address satisfying the precondition it
completes and pushes the page onto the executing CPU's free list, leaving
the other CPUs' lists untouched. -/
theorem C8_kfree_guard (kend PHYSTOP id pa : Nat) (s : KState) :
    ((kfree kend PHYSTOP id pa s).isNone = true ↔
      (pa % PGSIZE ≠ 0 ∨ pa < kend ∨ PHYSTOP ≤ pa)) ∧
    (pa % PGSIZE = 0 → kend ≤ pa → pa < PHYSTOP →
      (kfreeS kend PHYSTOP id pa s).freelists id = pa :: s.freelists id ∧
      ∀ c, c ≠ id → (kfreeS kend PHYSTOP id pa s).freelists c = s.freelists c) := by
  constructor
  · unfold kfree
    split
    · next hcond => simpa using hcond
    · next hcond => simpa using hcond
  · intro h1 h2 h3
    have hcond : ¬(pa % PGSIZE ≠ 0 ∨ pa < kend ∨ PHYSTOP ≤ pa) := by
      push_neg
      exact ⟨h1, h2, h3⟩
    constructor
    · simp [kfreeS, kfree, hcond]
    · intro c hc
      simp [kfreeS, kfree, hcond, hc]

/-- Witness for C8: freeing the aligned in-range page 4096 succeeds and
pushes it onto CPU 0's list. -/
theorem C8_kfree_witness :
    (kfreeS 4096 12288 0 4096 KSE).freelists 0 = 4096 :: KSE.freelists 0 :=
  ((C8_kfree_guard 4096 12288 0 4096 KSE).2 (by decide) (by decide) (by decide)).1

/-- Counterexample to C2 as stated: freeing page 4096 with an empty free
list stores the null free-list link in the first bytes, so the first byte
of the freed page is 0, not the free sentinel 1. -/
theorem C2_counterexample :
    (kfree 4096 12288 0 4096 KSE).isSome = true ∧
    (kfreeS 4096 12288 0 4096 KSE).mem 4096 ≠ 1 := by decide

/-- Amended C2 — after `kalloc` every byte of the returned page is the
allocation sentinel 5; after `kfree` every byte from offset 8 on is the
free sentinel 1, while the page's first 8 bytes hold the little-endian
free-list link (the previous list head address, 0 when the list was
empty). -/
theorem C2_amended_sentinels (NCPU kend PHYSTOP id pa : Nat) (s : KState) :
    (∀ r x, (kalloc NCPU id s).1 = some r → r ≤ x → x < r + PGSIZE →
      (kalloc NCPU id s).2.mem x = 5) ∧
    (pa % PGSIZE = 0 → kend ≤ pa → pa < PHYSTOP →
      (∀ x, pa + 8 ≤ x → x < pa + PGSIZE → (kfreeS kend PHYSTOP id pa s).mem x = 1) ∧
      (∀ x, pa ≤ x → x < pa + 8 →
        (kfreeS kend PHYSTOP id pa s).mem x =
          listHeadAddr (s.freelists id) / 256 ^ (x - pa) % 256)) := by
  constructor
  · intro r x hr hx1 hx2
    cases hl : s.freelists id with
    | cons r0 tail =>
        unfold kalloc at hr ⊢
        rw [hl] at hr ⊢
        injection hr with hr2
        rw [← hr2] at hx1 hx2
        show memsetBytes s.mem r0 5 PGSIZE x = 5
        simp [memsetBytes, hx1, hx2]
    | nil =>
        rw [kalloc_empty_local NCPU id s hl] at hr ⊢
        rw [stealFrom_some_mem id s (List.range NCPU) r hr]
        simp [memsetBytes, hx1, hx2]
  · intro h1 h2 h3
    have hcond : ¬(pa % PGSIZE ≠ 0 ∨ pa < kend ∨ PHYSTOP ≤ pa) := by
      push_neg
      exact ⟨h1, h2, h3⟩
    constructor
    · intro x hx1 hx2
      have hx3 : ¬(pa ≤ x ∧ x < pa + 8) := by omega
      simp [kfreeS, kfree, hcond, store64, memsetBytes, hx3]
      omega
    · intro x hx1 hx2
      simp [kfreeS, kfree, hcond, store64, memsetBytes, hx1, hx2]

/-- Witness for the amended C2: stealing-path and free-path sentinel bytes
on concrete states. -/
theorem C2_amended_witness :
    (kalloc 2 0 KS1).2.mem 8200 = 5 ∧
    (kfreeS 4096 12288 0 4096 KSE).mem 4104 = 1 ∧
    (kfreeS 4096 12288 0 4096 KSE).mem 4096 =
      listHeadAddr (KSE.freelists 0) / 256 ^ (4096 - 4096) % 256 :=
  ⟨(C2_amended_sentinels 2 4096 12288 0 4096 KS1).1 8192 8200 (by decide) (by decide)
      (by decide),
   ((C2_amended_sentinels 2 4096 12288 0 4096 KSE).2 (by decide) (by decide)
      (by decide)).1 4104 (by decide) (by decide),
   ((C2_amended_sentinels 2 4096 12288 0 4096 KSE).2 (by decide) (by decide)
      (by decide)).2 4096 (by decide) (by decide)⟩

/-- Claim C3 — code-bug evidence: the fallback `findid` is `blockno % 13`
regardless of the bucket count. With `NBUCKET = 2` the victim cached block
3 lives in bucket `3 % 2 = 1`, but `donorId` names bucket 3, whose empty
chain makes the unlink walk dereference a null pointer. -/
theorem C3_donor_bucket_hardcoded :
    donorId 3 = 3 ∧ 3 % 2 = 1 ∧ donorId 3 ≠ 3 % 2 ∧
    isCrash (bget 2 2 0 2 S3c) = true := by decide

/-- Counterexample to C1 as stated: on a cache miss (device 1, block 0,
initialized cache), `bget` returns a repurposed buffer with `valid =
false` — the content is not loaded by acquire itself. -/
theorem C1_counterexample :
    isOk (bget 13 13 1 0 (binit 13 13)) = true ∧
    ((bgetS 13 13 1 0 (binit 13 13)).bufs (bgetIx 13 13 1 0 (binit 13 13))).valid
      = false := by decide

/-- Amended C1 — it is `bread` (the spec's `read`) that guarantees a valid
buffer: whenever `bread` returns a buffer, that buffer's `valid` flag is
true (the disk read was issued on a miss); `bget` alone only guarantees
exclusive use. -/
lemma bread_ok_valid (NBUF NBUCKET dev blockno : Nat) (s s1 : BCache) (b : Nat)
    (h : bread NBUF NBUCKET dev blockno s = BRes.ok s1 b) :
    (s1.bufs b).valid = true := by
  unfold bread at h
  split at h
  next s2 c hg =>
    split at h
    next hv =>
      injection h with h1 h2
      rw [← h1, ← h2]
      exact hv
    next hv =>
      injection h with h1 h2
      rw [← h1, ← h2]
      simp
  next r hne => exact absurd h (hne s1 b)

/-- Amended C1 — it is `bread` (the spec's `read`) that guarantees a valid
buffer: whenever `bread` returns a buffer, that buffer's `valid` flag is
true (the disk read was issued on a miss); `bget` alone only guarantees
exclusive use. -/
theorem C1_amended_read_valid (NBUF NBUCKET dev blockno : Nat) (s : BCache)
    (h : isOk (bread NBUF NBUCKET dev blockno s) = true) :
    ((breadS NBUF NBUCKET dev blockno s).bufs
      (breadIx NBUF NBUCKET dev blockno s)).valid = true := by
  unfold breadS breadIx
  cases hg : bread NBUF NBUCKET dev blockno s with
  | ok s1 b => exact bread_ok_valid NBUF NBUCKET dev blockno s s1 b hg
  | fatal => rw [hg] at h; exact Bool.noConfusion h
  | crash => rw [hg] at h; exact Bool.noConfusion h

/-- Witness for the amended C1 on the concrete miss of the C1
counterexample. -/
theorem C1_amended_witness :
    ((breadS 13 13 1 0 (binit 13 13)).bufs (breadIx 13 13 1 0 (binit 13 13))).valid
      = true :=
  C1_amended_read_valid 13 13 1 0 (binit 13 13) (by decide)

lemma lruScan_acc_some (bufs : Nat → Buf) :
    ∀ (l : List Nat) (a m : Nat), (lruScan bufs l (some a, m)).1.isSome = true := by
  intro l
  induction l with
  | nil => intro a m; rfl
  | cons b rest ih =>
      intro a m
      rw [lruScan]
      split
      · exact ih b _
      · exact ih a m

lemma lruScan_pick_refcnt (bufs : Nat → Buf) :
    ∀ (l : List Nat) (acc : Option Nat × Nat) (a m2 : Nat),
      lruScan bufs l acc = (some a, m2) → acc.1 = some a ∨ (bufs a).refcnt = 0 := by
  intro l
  induction l with
  | nil =>
      intro acc a m2 h
      rw [lruScan] at h
      rw [h]
      exact Or.inl rfl
  | cons b rest ih =>
      intro acc a m2 h
      rw [lruScan] at h
      by_cases hc : (bufs b).refcnt = 0 ∧ (bufs b).time_stamp < acc.2
      · rw [if_pos hc] at h
        rcases ih _ a m2 h with h1 | h1
        · simp only [Option.some.injEq] at h1
          exact Or.inr (h1 ▸ hc.1)
        · exact Or.inr h1
      · rw [if_neg hc] at h
        exact ih acc a m2 h

/-- Claim C10 — `bunpin` decrements without any positivity check or fatal
error; on a descriptor with reference count 0 the unsigned count wraps
around to `__UINT32_MAX__`, and since both eviction scans of `bget`
(`lruScan`) only ever select descriptors with reference count exactly 0,
such a descriptor is not an eviction candidate. -/
theorem C10_bunpin_wraparound (s : BCache) (b : Nat) (h : (s.bufs b).refcnt = 0) :
    ((bunpin b s).bufs b).refcnt = UINT32MAX ∧
    ∀ (l : List Nat) (m : Nat), (lruScan (bunpin b s).bufs l (none, m)).1 ≠ some b := by
  have hr : ((bunpin b s).bufs b).refcnt = UINT32MAX := by
    simp [bunpin, h, MOD32, UINT32MAX]
  refine ⟨hr, ?_⟩
  intro l m hcontra
  have heq : lruScan (bunpin b s).bufs l (none, m) =
      (some b, (lruScan (bunpin b s).bufs l (none, m)).2) := by
    rw [← hcontra]
  rcases lruScan_pick_refcnt (bunpin b s).bufs l (none, m) b _ heq with h1 | h1
  · exact Option.noConfusion h1
  · rw [hr] at h1
    exact absurd h1 (by decide)

/-- Witness for C10 on descriptor 0 of the initialized cache. -/
theorem C10_witness :
    ((bunpin 0 (binit 13 13)).bufs 0).refcnt = UINT32MAX ∧
    (lruScan (bunpin 0 (binit 13 13)).bufs [0, 1, 2] (none, UINT32MAX)).1 ≠ some 0 :=
  ⟨(C10_bunpin_wraparound (binit 13 13) 0 (by decide)).1,
   (C10_bunpin_wraparound (binit 13 13) 0 (by decide)).2 [0, 1, 2] UINT32MAX⟩

/-! ### Lemmas about the LRU candidate scan -/

lemma lruScan_none (bufs : Nat → Buf) :
    ∀ (l : List Nat) (acc : Option Nat × Nat) (m2 : Nat),
      lruScan bufs l acc = (none, m2) →
      acc = (none, m2) ∧
      ∀ e ∈ l, ¬((bufs e).refcnt = 0 ∧ (bufs e).time_stamp < acc.2) := by
  intro l
  induction l with
  | nil =>
      intro acc m2 h
      rw [lruScan] at h
      exact ⟨h, by simp⟩
  | cons b rest ih =>
      intro acc m2 h
      rw [lruScan] at h
      by_cases hc : (bufs b).refcnt = 0 ∧ (bufs b).time_stamp < acc.2
      · rw [if_pos hc] at h
        have hs := lruScan_acc_some bufs rest b (bufs b).time_stamp
        rw [h] at hs
        exact Bool.noConfusion hs
      · rw [if_neg hc] at h
        obtain ⟨h1, h2⟩ := ih acc m2 h
        refine ⟨h1, ?_⟩
        intro e he
        rcases List.mem_cons.mp he with rfl | he2
        · exact hc
        · exact h2 e he2

lemma lruScan_some (bufs : Nat → Buf) :
    ∀ (l : List Nat) (acc : Option Nat × Nat) (a m2 : Nat),
      lruScan bufs l acc = (some a, m2) →
      acc = (some a, m2) ∨
      (a ∈ l ∧ (bufs a).refcnt = 0 ∧ (bufs a).time_stamp = m2 ∧ m2 < acc.2) := by
  intro l
  induction l with
  | nil =>
      intro acc a m2 h
      rw [lruScan] at h
      exact Or.inl h
  | cons b rest ih =>
      intro acc a m2 h
      rw [lruScan] at h
      by_cases hc : (bufs b).refcnt = 0 ∧ (bufs b).time_stamp < acc.2
      · rw [if_pos hc] at h
        rcases ih _ a m2 h with h1 | h1
        · injection h1 with h1a h1b
          injection h1a with h1a
          subst h1a
          subst h1b
          exact Or.inr ⟨List.mem_cons_self _ _, hc.1, rfl, hc.2⟩
        · exact Or.inr ⟨List.mem_cons_of_mem b h1.1, h1.2.1, h1.2.2.1,
            lt_trans h1.2.2.2 hc.2⟩
      · rw [if_neg hc] at h
        rcases ih acc a m2 h with h1 | h1
        · exact Or.inl h1
        · exact Or.inr ⟨List.mem_cons_of_mem b h1.1, h1.2⟩

lemma lruScan_min (bufs : Nat → Buf) :
    ∀ (l : List Nat) (acc : Option Nat × Nat),
      (lruScan bufs l acc).2 ≤ acc.2 ∧
      ∀ e ∈ l, (bufs e).refcnt = 0 →
        (lruScan bufs l acc).2 ≤ (bufs e).time_stamp := by
  intro l
  induction l with
  | nil => intro acc; exact ⟨le_rfl, by simp⟩
  | cons b rest ih =>
      intro acc
      rw [lruScan]
      by_cases hc : (bufs b).refcnt = 0 ∧ (bufs b).time_stamp < acc.2
      · rw [if_pos hc]
        obtain ⟨h1, h2⟩ := ih (some b, (bufs b).time_stamp)
        refine ⟨le_trans h1 (le_of_lt hc.2), ?_⟩
        intro e he hr
        rcases List.mem_cons.mp he with rfl | he2
        · exact h1
        · exact h2 e he2 hr
      · rw [if_neg hc]
        obtain ⟨h1, h2⟩ := ih acc
        refine ⟨h1, ?_⟩
        intro e he hr
        rcases List.mem_cons.mp he with rfl | he2
        · have : acc.2 ≤ (bufs e).time_stamp := by
            by_contra hlt
            exact hc ⟨hr, by omega⟩
          omega
        · exact h2 e he2 hr

lemma lruScan_progress (bufs : Nat → Buf) :
    ∀ (l : List Nat) (acc : Option Nat × Nat) (e : Nat), e ∈ l →
      (bufs e).refcnt = 0 → (bufs e).time_stamp < acc.2 →
      (lruScan bufs l acc).1.isSome = true := by
  intro l
  induction l with
  | nil => intro acc e he; exact absurd he (List.not_mem_nil e)
  | cons b rest ih =>
      intro acc e he hr hts
      rw [lruScan]
      by_cases hc : (bufs b).refcnt = 0 ∧ (bufs b).time_stamp < acc.2
      · rw [if_pos hc]
        exact lruScan_acc_some bufs rest b (bufs b).time_stamp
      · rw [if_neg hc]
        rcases List.mem_cons.mp he with rfl | he2
        · exact absurd ⟨hr, hts⟩ hc
        · exact ih acc e he2 hr hts

/-- Amended C5 — `bget` panics exactly when the request misses in its
bucket and no descriptor in the pool has reference count 0 together with a
recency stamp strictly below `__UINT32_MAX__` (the strict `<` against the
initial `nowmin` excludes stamp-saturated descriptors); the hypothesis
says the requested bucket's chain only holds pool indices. -/
theorem C5_amended_fatal_iff (NBUF NBUCKET dev blockno : Nat) (s : BCache)
    (hchain : ∀ x ∈ s.chains (blockno % NBUCKET), x < NBUF) :
    isFatal (bget NBUF NBUCKET dev blockno s) = true ↔
      (findHit s.bufs dev blockno (s.chains (blockno % NBUCKET)) = none ∧
       ∀ x, x < NBUF → ¬((s.bufs x).refcnt = 0 ∧ (s.bufs x).time_stamp < UINT32MAX)) := by
  unfold bget
  split
  next b hfh =>
    refine iff_of_false (by simp [isFatal]) ?_
    rintro ⟨hnone, -⟩
    rw [hfh] at hnone
    exact Option.noConfusion hnone
  next hfh =>
    split
    next ans m2 hl1 =>
      rcases lruScan_some s.bufs _ _ ans m2 hl1 with h1 | h1
      · exact absurd h1 (by simp)
      · refine iff_of_false (by simp [isFatal]) ?_
        rintro ⟨-, hall⟩
        exact absurd ⟨h1.2.1, h1.2.2.1 ▸ h1.2.2.2⟩ (hall ans (hchain ans h1.1))
    next nowmin hl1 =>
      obtain ⟨heq, -⟩ := lruScan_none s.bufs _ _ _ hl1
      have hnm : nowmin = UINT32MAX := (congrArg Prod.snd heq).symm
      subst hnm
      split
      next ans m2 hl2 =>
        rcases lruScan_some s.bufs _ _ ans m2 hl2 with h2 | h2
        · exact absurd h2 (by simp)
        · have hRfalse : ¬(∀ x, x < NBUF →
              ¬((s.bufs x).refcnt = 0 ∧ (s.bufs x).time_stamp < UINT32MAX)) := by
            intro hall
            exact absurd ⟨h2.2.1, h2.2.2.1 ▸ h2.2.2.2⟩
              (hall ans (List.mem_range.mp h2.1))
          split
          · exact iff_of_false (by simp [isFatal]) (by rintro ⟨-, hall⟩; exact hRfalse hall)
          · exact iff_of_false (by simp [isFatal]) (by rintro ⟨-, hall⟩; exact hRfalse hall)
      next m2 hl2 =>
        obtain ⟨-, hall2⟩ := lruScan_none s.bufs _ _ _ hl2
        refine iff_of_true (by simp [isFatal]) ?_
        exact ⟨hfh, fun x hx => hall2 x (List.mem_range.mpr hx)⟩


/-- Amended C9 — on a miss, when the requested bucket holds a descriptor
with reference count 0 and recency stamp below `__UINT32_MAX__`, `bget`
repurposes a descriptor of that bucket with reference count 0 and minimal
stamp among the bucket's reference-count-0 descriptors, overwriting its
key, marking it invalid and setting its reference count to 1. -/
theorem C9_amended_bucket_lru (NBUF NBUCKET dev blockno b0 : Nat) (s : BCache)
    (hmiss : findHit s.bufs dev blockno (s.chains (blockno % NBUCKET)) = none)
    (hb0 : b0 ∈ s.chains (blockno % NBUCKET))
    (href : (s.bufs b0).refcnt = 0)
    (hts : (s.bufs b0).time_stamp < UINT32MAX) :
    isOk (bget NBUF NBUCKET dev blockno s) = true ∧
    bgetIx NBUF NBUCKET dev blockno s ∈ s.chains (blockno % NBUCKET) ∧
    (s.bufs (bgetIx NBUF NBUCKET dev blockno s)).refcnt = 0 ∧
    (∀ c ∈ s.chains (blockno % NBUCKET), (s.bufs c).refcnt = 0 →
      (s.bufs (bgetIx NBUF NBUCKET dev blockno s)).time_stamp ≤
        (s.bufs c).time_stamp) ∧
    (bgetS NBUF NBUCKET dev blockno s).bufs (bgetIx NBUF NBUCKET dev blockno s) =
      { s.bufs (bgetIx NBUF NBUCKET dev blockno s) with
          dev := dev, blockno := blockno, valid := false, refcnt := 1 } := by
  have hsome := lruScan_progress s.bufs (s.chains (blockno % NBUCKET))
    (none, UINT32MAX) b0 hb0 href hts
  rcases hl : lruScan s.bufs (s.chains (blockno % NBUCKET)) (none, UINT32MAX)
    with ⟨o, m2⟩
  rw [hl] at hsome
  cases o with
  | none => exact absurd hsome (by simp)
  | some a =>
      have hres : bget NBUF NBUCKET dev blockno s =
          BRes.ok (repurpose dev blockno a s) a := by
        unfold bget
        rw [hmiss, hl]
      rcases lruScan_some s.bufs _ _ a m2 hl with h1 | h1
      · exact absurd h1 (by simp)
      · obtain ⟨hmem, hrefa, htseq, _⟩ := h1
        have hix : bgetIx NBUF NBUCKET dev blockno s = a := by
          unfold bgetIx
          rw [hres]
          rfl
        have hst : bgetS NBUF NBUCKET dev blockno s = repurpose dev blockno a s := by
          unfold bgetS
          rw [hres]
          rfl
        rw [hix, hst]
        refine ⟨by rw [hres]; rfl, hmem, hrefa, ?_, ?_⟩
        · intro c hc hrc
          have hm := (lruScan_min s.bufs (s.chains (blockno % NBUCKET))
            (none, UINT32MAX)).2 c hc hrc
          rw [hl] at hm
          rw [htseq]
          exact hm
        · simp [repurpose]

set_option maxRecDepth 400000 in
/-- Counterexample to C5 as stated: in state `S5c` every descriptor has
reference count 0 (descriptor 0 shown), yet `bget(0, 13)` panics, because
every stamp equals `__UINT32_MAX__` and the scans' strict `<` finds no
candidate. -/
theorem C5_counterexample :
    (S5c.bufs 0).refcnt = 0 ∧ isFatal (bget 13 13 0 13 S5c) = true := by decide

set_option maxRecDepth 400000 in
/-- Witness for the amended C5 at the concrete exhausted-stamp state. -/
theorem C5_amended_witness : isFatal (bget 13 13 0 13 S5c) = true :=
  (C5_amended_fatal_iff 13 13 0 13 S5c (by decide)).mpr (by decide)

set_option maxRecDepth 400000 in
/-- Counterexample to C9 as stated: in state `S9c` bucket 0 contains
descriptor 0 with reference count 0 (its stamp is `__UINT32_MAX__`), the
request `bget(0, 13)` misses, yet `bget` repurposes descriptor 1 — which
was not on bucket 0's chain — instead of descriptor 0. -/
theorem C9_counterexample :
    findHit S9c.bufs 0 13 (S9c.chains 0) = none ∧
    (S9c.bufs 0).refcnt = 0 ∧ 0 ∈ S9c.chains 0 ∧
    isOk (bget 13 13 0 13 S9c) = true ∧
    bgetIx 13 13 0 13 S9c = 1 ∧ ¬(1 ∈ S9c.chains 0) := by decide

/-- Witness for the amended C9 on a concrete miss in the initialized
cache: the victim is drawn from bucket 0's chain, has reference count 0,
and its stamp is minimal (instantiated at chain member 0). -/
theorem C9_amended_witness :
    isOk (bget 13 13 0 13 (binit 13 13)) = true ∧
    ((binit 13 13).bufs (bgetIx 13 13 0 13 (binit 13 13))).refcnt = 0 ∧
    (((binit 13 13).bufs 0).refcnt = 0 →
      ((binit 13 13).bufs (bgetIx 13 13 0 13 (binit 13 13))).time_stamp ≤
        ((binit 13 13).bufs 0).time_stamp) :=
  ⟨(C9_amended_bucket_lru 13 13 0 13 0 (binit 13 13) (by decide) (by decide)
      (by decide) (by decide)).1,
   (C9_amended_bucket_lru 13 13 0 13 0 (binit 13 13) (by decide) (by decide)
      (by decide) (by decide)).2.2.1,
   fun h => (C9_amended_bucket_lru 13 13 0 13 0 (binit 13 13) (by decide) (by decide)
      (by decide) (by decide)).2.2.2.1 0 (by decide) h⟩

/-! ### Lemmas about the hit scan and initialization -/

lemma findHit_mem (bufs : Nat → Buf) (dev blockno : Nat) :
    ∀ (l : List Nat) (y : Nat), findHit bufs dev blockno l = some y →
      y ∈ l ∧ (bufs y).dev = dev ∧ (bufs y).blockno = blockno := by
  intro l
  induction l with
  | nil =>
      intro y h
      rw [findHit] at h
      exact Option.noConfusion h
  | cons b rest ih =>
      intro y h
      rw [findHit] at h
      by_cases hc : (bufs b).dev = dev ∧ (bufs b).blockno = blockno
      · rw [if_pos hc] at h
        injection h with h1
        subst h1
        exact ⟨List.mem_cons_self _ _, hc.1, hc.2⟩
      · rw [if_neg hc] at h
        obtain ⟨h1, h2, h3⟩ := ih y h
        exact ⟨List.mem_cons_of_mem b h1, h2, h3⟩

lemma findHit_none (bufs : Nat → Buf) (dev blockno : Nat) :
    ∀ (l : List Nat), findHit bufs dev blockno l = none →
      ∀ e ∈ l, ¬((bufs e).dev = dev ∧ (bufs e).blockno = blockno) := by
  intro l
  induction l with
  | nil => intro _ e he; exact absurd he (List.not_mem_nil e)
  | cons b rest ih =>
      intro h e he
      rw [findHit] at h
      by_cases hc : (bufs b).dev = dev ∧ (bufs b).blockno = blockno
      · rw [if_pos hc] at h
        exact Option.noConfusion h
      · rw [if_neg hc] at h
        rcases List.mem_cons.mp he with rfl | he2
        · exact hc
        · exact ih h e he2

lemma findHit_first (bufs : Nat → Buf) (dev blockno : Nat) :
    ∀ (l : List Nat) (a : Nat), a ∈ l →
      (bufs a).dev = dev → (bufs a).blockno = blockno →
      (∀ e ∈ l, e ≠ a → ¬((bufs e).dev = dev ∧ (bufs e).blockno = blockno)) →
      findHit bufs dev blockno l = some a := by
  intro l
  induction l with
  | nil => intro a ha; exact absurd ha (List.not_mem_nil a)
  | cons b rest ih =>
      intro a ha hd hb hother
      rw [findHit]
      by_cases hc : (bufs b).dev = dev ∧ (bufs b).blockno = blockno
      · rw [if_pos hc]
        by_cases hba : b = a
        · rw [hba]
        · exact absurd hc (hother b (List.mem_cons_self _ _) hba)
      · rw [if_neg hc]
        rcases List.mem_cons.mp ha with rfl | ha2
        · exact absurd ⟨hd, hb⟩ hc
        · exact ih a ha2 hd hb
            (fun e he hea => hother e (List.mem_cons_of_mem b he) hea)

lemma findHit_congr (bufs bufs2 : Nat → Buf) (dev blockno : Nat) :
    ∀ (l : List Nat) (y : Nat), findHit bufs dev blockno l = some y →
      (bufs2 y).dev = dev → (bufs2 y).blockno = blockno →
      (∀ e, (bufs2 e).dev = dev ∧ (bufs2 e).blockno = blockno →
            ((bufs e).dev = dev ∧ (bufs e).blockno = blockno) ∨ e = y) →
      findHit bufs2 dev blockno l = some y := by
  intro l
  induction l with
  | nil =>
      intro y h
      rw [findHit] at h
      exact Option.noConfusion h
  | cons b rest ih =>
      intro y h hyd hyb hcond
      rw [findHit] at h ⊢
      by_cases hcb : (bufs b).dev = dev ∧ (bufs b).blockno = blockno
      · rw [if_pos hcb] at h
        injection h with h1
        subst h1
        rw [if_pos ⟨hyd, hyb⟩]
      · rw [if_neg hcb] at h
        by_cases hcb2 : (bufs2 b).dev = dev ∧ (bufs2 b).blockno = blockno
        · rcases hcond b hcb2 with h1 | h1
          · exact absurd h1 hcb
          · subst h1
            rw [if_pos hcb2]
        · rw [if_neg hcb2]
          exact ih y h hyd hyb hcond

lemma findHit_removeFirst (bufs : Nat → Buf) (dev blockno : Nat) :
    ∀ (l l2 : List Nat) (a y : Nat), findHit bufs dev blockno l = some y →
      ¬((bufs a).dev = dev ∧ (bufs a).blockno = blockno) →
      removeFirst l a = some l2 →
      findHit bufs dev blockno l2 = some y := by
  intro l
  induction l with
  | nil =>
      intro l2 a y h
      rw [findHit] at h
      exact fun _ _ => Option.noConfusion h
  | cons b rest ih =>
      intro l2 a y h hna hrm
      rw [removeFirst] at hrm
      rw [findHit] at h
      by_cases hba : b = a
      · rw [if_pos hba] at hrm
        injection hrm with hrm
        subst hrm
        rw [hba] at h
        rw [if_neg hna] at h
        exact h
      · rw [if_neg hba] at hrm
        rcases Option.map_eq_some'.mp hrm with ⟨l3, hl3, rfl⟩
        rw [findHit]
        by_cases hcb : (bufs b).dev = dev ∧ (bufs b).blockno = blockno
        · rw [if_pos hcb] at h ⊢
          exact h
        · rw [if_neg hcb] at h ⊢
          exact ih l3 a y h hna hl3

lemma findHit_keys_eq (bufs bufs2 : Nat → Buf)
    (hk : ∀ e, (bufs2 e).dev = (bufs e).dev ∧ (bufs2 e).blockno = (bufs e).blockno)
    (dev blockno : Nat) :
    ∀ l, findHit bufs2 dev blockno l = findHit bufs dev blockno l := by
  intro l
  induction l with
  | nil => rfl
  | cons b rest ih =>
      rw [findHit, findHit, (hk b).1, (hk b).2, ih]

lemma pushBuf_refcnt (i b : Nat) (s : BCache) (x : Nat) :
    ((pushBuf i b s).bufs x).refcnt = (s.bufs x).refcnt := by
  by_cases hx : x = b
  · subst hx; simp [pushBuf]
  · simp [pushBuf, hx]

lemma binitInner_refcnt (i : Nat) :
    ∀ (j b : Nat) (s : BCache) (x : Nat),
      ((binitInner i b j s).bufs x).refcnt = (s.bufs x).refcnt := by
  intro j
  induction j with
  | zero => intro b s x; rfl
  | succ j ih =>
      intro b s x
      show ((binitInner i (b + 1) j (pushBuf i b s)).bufs x).refcnt = (s.bufs x).refcnt
      rw [ih (b + 1) (pushBuf i b s) x, pushBuf_refcnt]

lemma binitBuckets_refcnt (k : Nat) :
    ∀ (n b i : Nat) (s : BCache) (x : Nat),
      ((binitBuckets k b i n s).bufs x).refcnt = (s.bufs x).refcnt := by
  intro n
  induction n with
  | zero => intro b i s x; rfl
  | succ n ih =>
      intro b i s x
      show ((binitBuckets k (b + k) (i + 1) n (binitInner i b k s)).bufs x).refcnt
          = (s.bufs x).refcnt
      rw [ih (b + k) (i + 1) (binitInner i b k s) x, binitInner_refcnt]

lemma binit_refcnt (NBUF NBUCKET x : Nat) :
    ((binit NBUF NBUCKET).bufs x).refcnt = 0 := by
  unfold binit
  rw [binitBuckets_refcnt]
  rfl

lemma keyInv_key_preserving (NBUCKET : Nat) (s t : BCache) (hInv : KeyInv NBUCKET s)
    (hk : ∀ e, (t.bufs e).dev = (s.bufs e).dev ∧ (t.bufs e).blockno = (s.bufs e).blockno)
    (hc : ∀ c, t.chains c = s.chains c)
    (hr : ∀ x, (t.bufs x).refcnt ≠ 0 →
      (s.bufs x).refcnt ≠ 0 ∨
      findHit s.bufs (s.bufs x).dev (s.bufs x).blockno
        (s.chains ((s.bufs x).blockno % NBUCKET)) = some x) :
    KeyInv NBUCKET t := by
  intro x hx
  have hfh : findHit s.bufs (s.bufs x).dev (s.bufs x).blockno
      (s.chains ((s.bufs x).blockno % NBUCKET)) = some x := by
    rcases hr x hx with h | h
    · exact hInv x h
    · exact h
  rw [(hk x).1, (hk x).2, hc, findHit_keys_eq s.bufs t.bufs hk]
  exact hfh

lemma brelse_keys (ticks b : Nat) (s : BCache) (e : Nat) :
    ((brelse ticks b s).bufs e).dev = (s.bufs e).dev ∧
    ((brelse ticks b s).bufs e).blockno = (s.bufs e).blockno := by
  by_cases he : e = b
  · subst he
    simp only [brelse]
    rw [if_pos trivial]
    by_cases hc : ((s.bufs e).refcnt + (MOD32 - 1)) % MOD32 = 0
    · rw [if_pos hc]
      exact ⟨rfl, rfl⟩
    · rw [if_neg hc]
      exact ⟨rfl, rfl⟩
  · simp [brelse, he]

lemma brelse_bufs_ne (ticks b : Nat) (s : BCache) (e : Nat) (he : e ≠ b) :
    (brelse ticks b s).bufs e = s.bufs e := by
  simp [brelse, he]

lemma bpin_keys (b : Nat) (s : BCache) (e : Nat) :
    ((bpin b s).bufs e).dev = (s.bufs e).dev ∧
    ((bpin b s).bufs e).blockno = (s.bufs e).blockno := by
  by_cases he : e = b
  · subst he; simp [bpin]
  · simp [bpin, he]

lemma bpin_bufs_ne (b : Nat) (s : BCache) (e : Nat) (he : e ≠ b) :
    (bpin b s).bufs e = s.bufs e := by
  simp [bpin, he]

lemma bunpin_keys (b : Nat) (s : BCache) (e : Nat) :
    ((bunpin b s).bufs e).dev = (s.bufs e).dev ∧
    ((bunpin b s).bufs e).blockno = (s.bufs e).blockno := by
  by_cases he : e = b
  · subst he; simp [bunpin]
  · simp [bunpin, he]

lemma bunpin_bufs_ne (b : Nat) (s : BCache) (e : Nat) (he : e ≠ b) :
    (bunpin b s).bufs e = s.bufs e := by
  simp [bunpin, he]

lemma keyInv_guard_update (NBUCKET b : Nat) (s t : BCache) (hInv : KeyInv NBUCKET s)
    (hk : ∀ e, (t.bufs e).dev = (s.bufs e).dev ∧ (t.bufs e).blockno = (s.bufs e).blockno)
    (hc : ∀ c, t.chains c = s.chains c)
    (hne : ∀ e, e ≠ b → t.bufs e = s.bufs e)
    (hb : (s.bufs b).refcnt ≠ 0) : KeyInv NBUCKET t := by
  apply keyInv_key_preserving NBUCKET s t hInv hk hc
  intro x hx
  by_cases hxb : x = b
  · subst hxb
    exact Or.inl hb
  · rw [hne x hxb] at hx
    exact Or.inl hx

lemma keyInv_hit (NBUCKET dev blockno b : Nat) (s : BCache) (hInv : KeyInv NBUCKET s)
    (hfh : findHit s.bufs dev blockno (s.chains (blockno % NBUCKET)) = some b) :
    KeyInv NBUCKET
      { s with bufs := fun x =>
          if x = b then { s.bufs b with refcnt := ((s.bufs b).refcnt + 1) % MOD32 }
          else s.bufs x } := by
  obtain ⟨hmem, hdev, hbn⟩ := findHit_mem s.bufs dev blockno _ b hfh
  apply keyInv_key_preserving NBUCKET s _ hInv
  · intro e
    by_cases he : e = b
    · subst he; simp
    · simp [he]
  · intro c; rfl
  · intro x hx
    by_cases hxb : x = b
    · subst hxb
      refine Or.inr ?_
      rw [hdev, hbn]
      exact hfh
    · simp only [hxb, if_neg hxb] at hx
      exact Or.inl hx

lemma keyInv_repurpose (NBUCKET dev blockno a : Nat) (s : BCache) (hInv : KeyInv NBUCKET s)
    (hmiss : findHit s.bufs dev blockno (s.chains (blockno % NBUCKET)) = none)
    (hmem : a ∈ s.chains (blockno % NBUCKET)) :
    KeyInv NBUCKET (repurpose dev blockno a s) := by
  intro x hx
  by_cases hxa : x = a
  · subst hxa
    have hta : (repurpose dev blockno x s).bufs x =
        { s.bufs x with dev := dev, blockno := blockno, valid := false, refcnt := 1 } := by
      simp [repurpose]
    rw [hta]
    show findHit (repurpose dev blockno x s).bufs dev blockno
      (s.chains (blockno % NBUCKET)) = some x
    apply findHit_first
    · exact hmem
    · rw [hta]
    · rw [hta]
    · intro e he hea
      have hne := findHit_none s.bufs dev blockno _ hmiss e he
      have heq : (repurpose dev blockno x s).bufs e = s.bufs e := by
        simp [repurpose, hea]
      rw [heq]
      exact hne
  · have hbx : (repurpose dev blockno a s).bufs x = s.bufs x := by
      simp [repurpose, hxa]
    rw [hbx] at hx ⊢
    have hs := hInv x hx
    show findHit (repurpose dev blockno a s).bufs (s.bufs x).dev (s.bufs x).blockno
      (s.chains ((s.bufs x).blockno % NBUCKET)) = some x
    apply findHit_congr s.bufs _ _ _ _ x hs
    · rw [hbx]
    · rw [hbx]
    · intro e hme
      by_cases hea : e = a
      · subst hea
        have hkey : (repurpose dev blockno e s).bufs e =
            { s.bufs e with dev := dev, blockno := blockno, valid := false, refcnt := 1 } := by
          simp [repurpose]
        rw [hkey] at hme
        have hxkey : (s.bufs x).dev = dev ∧ (s.bufs x).blockno = blockno :=
          ⟨hme.1.symm, hme.2.symm⟩
        have hcontra := hInv x hx
        rw [hxkey.1, hxkey.2] at hcontra
        rw [hmiss] at hcontra
        exact Option.noConfusion hcontra
      · have heq : (repurpose dev blockno a s).bufs e = s.bufs e := by
          simp [repurpose, hea]
        rw [heq] at hme
        exact Or.inl hme

lemma keyInv_splice (NBUCKET dev blockno a fd : Nat) (s t : BCache)
    (removed : List Nat) (hInv : KeyInv NBUCKET s)
    (hmiss : findHit s.bufs dev blockno (s.chains (blockno % NBUCKET)) = none)
    (hrm : removeFirst (s.chains fd) a = some removed)
    (ht : t = repurpose dev blockno a (splice a fd (blockno % NBUCKET) removed s)) :
    KeyInv NBUCKET t := by
  have hbufa : t.bufs a =
      { s.bufs a with dev := dev, blockno := blockno, valid := false, refcnt := 1 } := by
    rw [ht]; simp [repurpose, splice]
  have hbufne : ∀ e, e ≠ a → t.bufs e = s.bufs e := by
    intro e he; rw [ht]; simp [repurpose, splice, he]
  have hchid : t.chains (blockno % NBUCKET) =
      a :: (if fd = blockno % NBUCKET then removed else s.chains (blockno % NBUCKET)) := by
    rw [ht]; simp [repurpose, splice]
  have hchne : ∀ c, c ≠ blockno % NBUCKET →
      t.chains c = (if c = fd then removed else s.chains c) := by
    intro c hc; rw [ht]; simp [repurpose, splice, hc]
  intro x hx
  by_cases hxa : x = a
  · subst hxa
    have hd : (t.bufs x).dev = dev := by rw [hbufa]
    have hb : (t.bufs x).blockno = blockno := by rw [hbufa]
    rw [hd, hb, hchid, findHit, if_pos ⟨hd, hb⟩]
  · rw [hbufne x hxa] at hx ⊢
    have hs := hInv x hx
    have hnokey : ¬((s.bufs x).dev = dev ∧ (s.bufs x).blockno = blockno) := by
      rintro ⟨h1, h2⟩
      have hh := hInv x hx
      rw [h1, h2, hmiss] at hh
      exact Option.noConfusion hh
    have hA : findHit t.bufs (s.bufs x).dev (s.bufs x).blockno
        (s.chains ((s.bufs x).blockno % NBUCKET)) = some x := by
      apply findHit_congr s.bufs _ _ _ _ x hs
      · rw [hbufne x hxa]
      · rw [hbufne x hxa]
      · intro e hme
        by_cases hea : e = a
        · subst hea
          rw [hbufa] at hme
          exact absurd ⟨hme.1.symm, hme.2.symm⟩ hnokey
        · rw [hbufne e hea] at hme
          exact Or.inl hme
    have hnomatcha : ¬((t.bufs a).dev = (s.bufs x).dev ∧
        (t.bufs a).blockno = (s.bufs x).blockno) := by
      rw [hbufa]
      rintro ⟨h1, h2⟩
      exact hnokey ⟨h1.symm, h2.symm⟩
    by_cases hcid : (s.bufs x).blockno % NBUCKET = blockno % NBUCKET
    · rw [hcid, hchid, findHit, if_neg hnomatcha]
      by_cases hfdid : fd = blockno % NBUCKET
      · rw [if_pos hfdid]
        have hA2 : findHit t.bufs (s.bufs x).dev (s.bufs x).blockno
            (s.chains fd) = some x := by
          rw [hfdid, ← hcid]
          exact hA
        exact findHit_removeFirst t.bufs _ _ (s.chains fd) removed a x hA2 hnomatcha hrm
      · rw [if_neg hfdid, ← hcid]
        exact hA
    · rw [hchne _ hcid]
      by_cases hcfd : (s.bufs x).blockno % NBUCKET = fd
      · rw [if_pos hcfd]
        have hA2 : findHit t.bufs (s.bufs x).dev (s.bufs x).blockno
            (s.chains fd) = some x := by
          rw [← hcfd]
          exact hA
        exact findHit_removeFirst t.bufs _ _ (s.chains fd) removed a x hA2 hnomatcha hrm
      · rw [if_neg hcfd]
        exact hA

lemma bget_ok_cases (NBUF NBUCKET dev blockno : Nat) (s s2 : BCache) (b : Nat)
    (h : bget NBUF NBUCKET dev blockno s = BRes.ok s2 b) :
    (findHit s.bufs dev blockno (s.chains (blockno % NBUCKET)) = some b ∧
      s2 = { s with bufs := fun x =>
              if x = b then { s.bufs b with refcnt := ((s.bufs b).refcnt + 1) % MOD32 }
              else s.bufs x }) ∨
    (findHit s.bufs dev blockno (s.chains (blockno % NBUCKET)) = none ∧
      (∃ m2, lruScan s.bufs (s.chains (blockno % NBUCKET)) (none, UINT32MAX)
        = (some b, m2)) ∧
      s2 = repurpose dev blockno b s) ∨
    (findHit s.bufs dev blockno (s.chains (blockno % NBUCKET)) = none ∧
      (∃ removed, removeFirst (s.chains (donorId ((s.bufs b).blockno))) b = some removed ∧
        s2 = repurpose dev blockno b
          (splice b (donorId ((s.bufs b).blockno)) (blockno % NBUCKET) removed s))) := by
  unfold bget at h
  split at h
  next b2 hfh =>
    injection h with h1 h2
    subst h2
    exact Or.inl ⟨hfh, h1.symm⟩
  next hfh =>
    split at h
    next ans m2 hl1 =>
      injection h with h1 h2
      subst h2
      exact Or.inr (Or.inl ⟨hfh, ⟨m2, hl1⟩, h1.symm⟩)
    next nowmin hl1 =>
      split at h
      next ans m2 hl2 =>
        split at h
        next hrm => exact BRes.noConfusion h
        next removed hrm =>
          injection h with h1 h2
          subst h2
          exact Or.inr (Or.inr ⟨hfh, removed, hrm, h1.symm⟩)
      next m2 hl2 => exact BRes.noConfusion h

lemma keyInv_stepOp (NBUF NBUCKET : Nat) (s s2 : BCache) (op : BOp)
    (hInv : KeyInv NBUCKET s) (h : stepOp NBUF NBUCKET s op = some s2) :
    KeyInv NBUCKET s2 := by
  cases op with
  | get d bn =>
      simp only [stepOp] at h
      split at h
      next s3 b hb =>
        injection h with h2
        subst h2
        rcases bget_ok_cases NBUF NBUCKET d bn s s3 b hb with
          ⟨hfh, rfl⟩ | ⟨hmiss, ⟨m2, hl⟩, rfl⟩ | ⟨hmiss, removed, hrm, rfl⟩
        · exact keyInv_hit NBUCKET d bn b s hInv hfh
        · have hmem : b ∈ s.chains (bn % NBUCKET) := by
            rcases lruScan_some s.bufs _ _ b m2 hl with h1 | h1
            · exact absurd h1 (by simp)
            · exact h1.1
          exact keyInv_repurpose NBUCKET d bn b s hInv hmiss hmem
        · exact keyInv_splice NBUCKET d bn b (donorId ((s.bufs b).blockno)) s _
            removed hInv hmiss hrm rfl
      next hne => exact Option.noConfusion h
  | rel t b =>
      simp only [stepOp] at h
      split at h
      next hg =>
        injection h with h2
        subst h2
        exact keyInv_guard_update NBUCKET b s _ hInv (brelse_keys t b s)
          (fun c => rfl) (brelse_bufs_ne t b s) hg
      next hg => exact Option.noConfusion h
  | pin b =>
      simp only [stepOp] at h
      split at h
      next hg =>
        injection h with h2
        subst h2
        exact keyInv_guard_update NBUCKET b s _ hInv (bpin_keys b s)
          (fun c => rfl) (bpin_bufs_ne b s) hg
      next hg => exact Option.noConfusion h
  | unpin b =>
      simp only [stepOp] at h
      split at h
      next hg =>
        injection h with h2
        subst h2
        exact keyInv_guard_update NBUCKET b s _ hInv (bunpin_keys b s)
          (fun c => rfl) (bunpin_bufs_ne b s) hg
      next hg => exact Option.noConfusion h

lemma keyInv_reach (NBUF NBUCKET : Nat) (s : BCache) (h : BReach NBUF NBUCKET s) :
    KeyInv NBUCKET s := by
  induction h with
  | start =>
      intro x hx
      rw [binit_refcnt] at hx
      exact absurd rfl hx
  | step s1 s2 op hr hstep ih => exact keyInv_stepOp NBUF NBUCKET s1 s2 op ih hstep

/-- Claim C6 — cache-key uniqueness: in every state reachable from the
initialized cache by well-formed client calls (release/pin/unpin only on
held descriptors), no two distinct descriptors with nonzero reference
count share the same `(dev, blockno)` pair. -/
theorem C6_key_uniqueness (NBUF NBUCKET : Nat) (s : BCache)
    (h : BReach NBUF NBUCKET s) (x y : Nat)
    (hx : (s.bufs x).refcnt ≠ 0) (hy : (s.bufs y).refcnt ≠ 0)
    (hdev : (s.bufs x).dev = (s.bufs y).dev)
    (hbn : (s.bufs x).blockno = (s.bufs y).blockno) : x = y := by
  have hi := keyInv_reach NBUF NBUCKET s h
  have h1 := hi x hx
  have h2 := hi y hy
  rw [hdev, hbn] at h1
  have h3 : (some x : Option Nat) = some y := h1.symm.trans h2
  injection h3

/-- Witness for C6: after one `bget(0, 0)` (a reachable state via one
step), descriptor 0 is held and uniqueness instantiates at `x = y = 0`. -/
theorem C6_witness :
    ((bgetS 13 13 0 0 (binit 13 13)).bufs 0).refcnt ≠ 0 ∧ (0 : Nat) = 0 :=
  ⟨by decide,
   C6_key_uniqueness 13 13 (bgetS 13 13 0 0 (binit 13 13))
     (BReach.step (binit 13 13) (bgetS 13 13 0 0 (binit 13 13)) (BOp.get 0 0)
       BReach.start rfl) 0 0 (by decide) (by decide) rfl rfl⟩

lemma removeFirst_perm :
    ∀ (l l2 : List Nat) (a : Nat), removeFirst l a = some l2 → l.Perm (a :: l2) := by
  intro l
  induction l with
  | nil => intro l2 a h; exact Option.noConfusion h
  | cons x rest ih =>
      intro l2 a h
      rw [removeFirst] at h
      by_cases hxa : x = a
      · rw [if_pos hxa] at h
        injection h with h1
        subst h1
        rw [hxa]
      · rw [if_neg hxa] at h
        rcases Option.map_eq_some'.mp h with ⟨l3, hl3, rfl⟩
        exact List.Perm.trans ((ih l3 a hl3).cons x) (List.Perm.swap a x l3)

lemma count_range1 : ∀ (n a x : Nat),
    List.count x (List.range' a n) = if a ≤ x ∧ x < a + n then 1 else 0 := by
  intro n
  induction n with
  | zero =>
      intro a x
      have : ¬(a ≤ x ∧ x < a + 0) := by omega
      rw [if_neg this]
      rfl
  | succ n ih =>
      intro a x
      rw [List.range'_succ, List.count_cons, ih (a + 1) x]
      simp only [beq_iff_eq]
      split_ifs <;> omega

lemma count_flatMap (x : Nat) : ∀ (l : List Nat) (f : Nat → List Nat),
    List.count x (l.flatMap f) = (l.map fun c => List.count x (f c)).sum := by
  intro l
  induction l with
  | nil => intro f; rfl
  | cons c rest ih =>
      intro f
      rw [List.flatMap_cons, List.count_append, List.map_cons, List.sum_cons, ih f]

lemma binitInner_chains (i : Nat) :
    ∀ (j b : Nat) (s : BCache) (c : Nat),
      (binitInner i b j s).chains c =
        if c = i then (List.range' b j).reverse ++ s.chains c else s.chains c := by
  intro j
  induction j with
  | zero =>
      intro b s c
      by_cases hc : c = i
      · simp [binitInner, hc]
      · simp [binitInner, hc]
  | succ j ih =>
      intro b s c
      show (binitInner i (b + 1) j (pushBuf i b s)).chains c = _
      rw [ih (b + 1) (pushBuf i b s) c]
      by_cases hc : c = i
      · rw [if_pos hc, if_pos hc]
        subst hc
        have hpc : (pushBuf c b s).chains c = b :: s.chains c := by simp [pushBuf]
        rw [hpc, List.range'_succ]
        simp [List.append_assoc]
      · rw [if_neg hc, if_neg hc]
        simp [pushBuf, hc]

lemma binitBuckets_chains (k : Nat) :
    ∀ (n b i : Nat) (s : BCache) (c : Nat),
      (binitBuckets k b i n s).chains c =
        if i ≤ c ∧ c < i + n then
          (List.range' (b + (c - i) * k) k).reverse ++ s.chains c
        else s.chains c := by
  intro n
  induction n with
  | zero =>
      intro b i s c
      have : ¬(i ≤ c ∧ c < i + 0) := by omega
      rw [if_neg this]
      rfl
  | succ n ih =>
      intro b i s c
      show (binitBuckets k (b + k) (i + 1) n (binitInner i b k s)).chains c = _
      rw [ih (b + k) (i + 1) (binitInner i b k s) c, binitInner_chains i k b s c]
      by_cases h1 : i + 1 ≤ c ∧ c < i + 1 + n
      · have hci : ¬(c = i) := by omega
        have h2 : i ≤ c ∧ c < i + (n + 1) := by omega
        rw [if_pos h1, if_neg hci, if_pos h2]
        have h3 : b + k + (c - (i + 1)) * k = b + (c - i) * k := by
          have h4 : c - i = (c - (i + 1)) + 1 := by omega
          rw [h4]
          ring
        rw [h3]
      · rw [if_neg h1]
        by_cases hci : c = i
        · have h2 : i ≤ c ∧ c < i + (n + 1) := by omega
          rw [if_pos hci, if_pos h2]
          subst hci
          simp
        · have h2 : ¬(i ≤ c ∧ c < i + (n + 1)) := by omega
          rw [if_neg hci, if_neg h2]

lemma binit_chains (NBUF NBUCKET c : Nat) :
    (binit NBUF NBUCKET).chains c =
      if c < NBUCKET then
        (List.range' (c * (NBUF / NBUCKET)) (NBUF / NBUCKET)).reverse
      else [] := by
  unfold binit
  rw [binitBuckets_chains]
  by_cases hc : c < NBUCKET
  · rw [if_pos (show 0 ≤ c ∧ c < 0 + NBUCKET by omega), if_pos hc]
    simp
  · rw [if_neg (by omega), if_neg hc]

lemma count_onChains_binit (NBUF NBUCKET x : Nat) :
    List.count x (onChains NBUCKET (binit NBUF NBUCKET)) =
      if x < NBUCKET * (NBUF / NBUCKET) then 1 else 0 := by
  have haux : ∀ m, m ≤ NBUCKET →
      List.count x ((List.range m).flatMap (binit NBUF NBUCKET).chains) =
        if x < m * (NBUF / NBUCKET) then 1 else 0 := by
    intro m
    induction m with
    | zero =>
        intro _
        have : ¬(x < 0 * (NBUF / NBUCKET)) := by omega
        rw [if_neg this]
        rfl
    | succ m ih =>
        intro hm
        rw [List.range_succ, List.flatMap_append, List.count_append, ih (by omega)]
        have hone : ([m] : List Nat).flatMap (binit NBUF NBUCKET).chains =
            (binit NBUF NBUCKET).chains m := by simp
        rw [hone, binit_chains, if_pos (by omega : m < NBUCKET), List.count_reverse,
          count_range1, Nat.succ_mul]
        generalize NBUF / NBUCKET = K
        split_ifs <;> omega
  rw [onChains]
  exact haux NBUCKET le_rfl

lemma sum_map_two_point (n i j : Nat) (h g : Nat → Nat)
    (hi : i < n) (hj : j < n) (hij : i ≠ j)
    (hoth : ∀ c, c < n → c ≠ i → c ≠ j → h c = g c)
    (hsum : h i + h j = g i + g j) :
    ((List.range n).map h).sum = ((List.range n).map g).sum := by
  have hmi : i ∈ List.range n := List.mem_range.mpr hi
  have hp1 : (List.range n).Perm (i :: (List.range n).erase i) := List.perm_cons_erase hmi
  have hmj : j ∈ (List.range n).erase i :=
    (List.mem_erase_of_ne (Ne.symm hij)).mpr (List.mem_range.mpr hj)
  have hp2 : ((List.range n).erase i).Perm (j :: ((List.range n).erase i).erase j) :=
    List.perm_cons_erase hmj
  have hsplit : ∀ f : Nat → Nat, ((List.range n).map f).sum =
      f i + (f j + ((((List.range n).erase i).erase j).map f).sum) := by
    intro f
    rw [(hp1.map f).sum_eq, List.map_cons, List.sum_cons, (hp2.map f).sum_eq,
      List.map_cons, List.sum_cons]
  have hcong : ((((List.range n).erase i).erase j).map h) =
      ((((List.range n).erase i).erase j).map g) := by
    apply List.map_congr_left
    intro e he
    have hnd : ((List.range n).erase i).Nodup := (List.nodup_range n).erase i
    have h1 := hnd.mem_erase_iff.mp he
    have h2 := (List.nodup_range n).mem_erase_iff.mp h1.2
    exact hoth e (List.mem_range.mp h2.2) h2.1 h1.1
  rw [hsplit h, hsplit g, hcong]
  omega

lemma chainInv_stepOp (NBUF NBUCKET : Nat) (s s2 : BCache) (op : BOp)
    (hInv : ChainInv NBUF NBUCKET s) (h : stepOp NBUF NBUCKET s op = some s2) :
    ChainInv NBUF NBUCKET s2 := by
  cases op with
  | rel t b =>
      simp only [stepOp] at h
      split at h
      next hg =>
        injection h with h2
        subst h2
        exact hInv
      next hg => exact Option.noConfusion h
  | pin b =>
      simp only [stepOp] at h
      split at h
      next hg =>
        injection h with h2
        subst h2
        exact hInv
      next hg => exact Option.noConfusion h
  | unpin b =>
      simp only [stepOp] at h
      split at h
      next hg =>
        injection h with h2
        subst h2
        exact hInv
      next hg => exact Option.noConfusion h
  | get d bn =>
      simp only [stepOp] at h
      split at h
      next s3 b hb =>
        injection h with h2
        subst h2
        rcases bget_ok_cases NBUF NBUCKET d bn s s3 b hb with
          ⟨hfh, rfl⟩ | ⟨hmiss, ⟨m2, hl⟩, rfl⟩ | ⟨hmiss, removed, hrm, rfl⟩
        · exact hInv
        · exact hInv
        · obtain ⟨hEmpty, hCount⟩ := hInv
          set FD := donorId ((s.bufs b).blockno) with hFD
          set ID := bn % NBUCKET with hID
          have hpfd := removeFirst_perm _ _ _ hrm
          have hfdlt : FD < NBUCKET := by
            by_contra hge
            rw [hEmpty FD (by omega)] at hrm
            exact Option.noConfusion hrm
          have hidlt : ID < NBUCKET := by
            rw [hID]
            exact Nat.mod_lt _ (by omega)
          have hchother : ∀ c, c ≠ ID → c ≠ FD →
              (repurpose d bn b (splice b FD ID removed s)).chains c = s.chains c := by
            intro c h1 h2
            simp [repurpose, splice, h1, h2]
          constructor
          · intro c hc
            rw [hchother c (by omega) (by omega)]
            exact hEmpty c hc
          · intro x
            have hmain : ((List.range NBUCKET).map (fun c =>
                List.count x ((repurpose d bn b
                  (splice b FD ID removed s)).chains c))).sum =
                ((List.range NBUCKET).map (fun c => List.count x (s.chains c))).sum := by
              by_cases hfdid : FD = ID
              · apply congrArg
                apply List.map_congr_left
                intro c hc
                by_cases hcid : c = ID
                · have hch : (repurpose d bn b (splice b FD ID removed s)).chains c
                      = b :: removed := by
                    simp [repurpose, splice, hcid, hfdid]
                  have hcfd : s.chains c = s.chains FD := by
                    rw [hcid, hfdid]
                  simp only [hch, hcfd]
                  exact (hpfd.count_eq x).symm
                · have hcfd : c ≠ FD := by
                    rw [hfdid]
                    exact hcid
                  simp only [hchother c hcid hcfd]
              · exact sum_map_two_point NBUCKET ID FD
                  (fun c => List.count x ((repurpose d bn b
                    (splice b FD ID removed s)).chains c))
                  (fun c => List.count x (s.chains c))
                  hidlt hfdlt (fun hcontra => hfdid hcontra.symm)
                  (fun c hc h1 h2 => by simp only [hchother c h1 h2])
                  (by
                    have hch1 : (repurpose d bn b (splice b FD ID removed s)).chains ID
                        = b :: s.chains ID := by
                      simp [repurpose, splice, hfdid]
                    have hch2 : (repurpose d bn b (splice b FD ID removed s)).chains FD
                        = removed := by
                      simp [repurpose, splice, hfdid]
                    simp only [hch1, hch2, hpfd.count_eq x, List.count_cons]
                    omega)
            rw [onChains, count_flatMap, hmain, ← count_flatMap]
            exact hCount x
      next hne => exact Option.noConfusion h

lemma chainInv_reach (NBUF NBUCKET : Nat) (s : BCache) (h : BReach NBUF NBUCKET s) :
    ChainInv NBUF NBUCKET s := by
  induction h with
  | start =>
      constructor
      · intro c hc
        rw [binit_chains, if_neg (by omega)]
      · intro x
        exact count_onChains_binit NBUF NBUCKET x
  | step s1 s2 op hr hstep ih => exact chainInv_stepOp NBUF NBUCKET s1 s2 op ih hstep

/-- Amended C4 — in every state reachable from the initialized cache,
each of the `NBUCKET * (NBUF / NBUCKET)` descriptors placed by `binit`
lives on exactly one bucket chain (it appears exactly once in the
concatenation of all chains), and every other slot index — including the
`NBUF mod NBUCKET` orphaned descriptors when `NBUCKET` does not divide
`NBUF` — is on no chain; every operation preserves this (membership moves
only in the eviction-fallback splice). -/
theorem C4_amended_membership (NBUF NBUCKET : Nat) (s : BCache) (h : BReach NBUF NBUCKET s) (x : Nat) :
    List.count x (onChains NBUCKET s) =
      if x < NBUCKET * (NBUF / NBUCKET) then 1 else 0 :=
  (chainInv_reach NBUF NBUCKET s h).2 x

/-- Witness for the amended C4: descriptor 0 is on exactly one chain after
`binit 3 2`. -/
theorem C4_amended_witness :
    List.count 0 (onChains 2 (binit 3 2)) = if 0 < 2 * (3 / 2) then 1 else 0 :=
  C4_amended_membership 3 2 (binit 3 2) BReach.start 0

/-- Counterexample to C4 as stated: with `NBUF = 3`, `NBUCKET = 2`
(`NBUCKET` does not divide `NBUF`), descriptor 2 exists (`2 < NBUF`) but
is on no bucket chain after `binit` — `binit` only places
`NBUCKET * (NBUF / NBUCKET) = 2` descriptors. -/
theorem C4_counterexample : 2 < 3 ∧ List.count 2 (onChains 2 (binit 3 2)) = 0 := by decide
